import Mathlib

/-!
# Verification of the pronunciation-scoring subsystem

This file embeds the similarity-scoring module of the repository
(functions `levenshteinDistance`, `calculateSimilarity`,
`normalizeArabicText`, `calculateArabicSimilarity`) and proves the
specification claims about it.

Modelling conventions:

* A JavaScript string is modelled as a `List Char` of its code points.
  All characters the code treats specially (Arabic letters, diacritics,
  whitespace) are single UTF-16 code units, so list indices agree with
  the string indices used by the source.
* JavaScript number arithmetic in the score computation is modelled
  exactly over `ℚ`; `Math.round` is `jsRound` (floor of `q + 1/2`,
  which is the JavaScript rounding rule), and the final result is an
  integer (`ℤ`).
* `String.prototype.trim` and the regex `\s` use the same JavaScript
  whitespace set, modelled by `isJsWS`.
* `String.prototype.toLowerCase` is modelled by the ASCII case map
  `jsToLower`; the Arabic range is unaffected by case mapping.
-/

/-! ## Character classes and constants -/

def alef : Char := Char.ofNat 0x0627

def yaa : Char := Char.ofNat 0x064A

def alefMaqsura : Char := Char.ofNat 0x0649

def taaMarbuta : Char := Char.ofNat 0x0629

def haa : Char := Char.ofNat 0x0647

def tatweel : Char := Char.ofNat 0x0640

/-- The character class `[ً-ْٰ]` removed by the
diacritic-stripping step of `normalizeArabicText`. -/
def isDiacritic (c : Char) : Bool :=
  (0x064B ≤ c.toNat && c.toNat ≤ 0x0652) || c.toNat == 0x0670

/-- The character class `[آأإ]` (Alef Madda, Alef Hamza
Above, Alef Hamza Below) unified to plain Alef. -/
def isAlefVariant (c : Char) : Bool :=
  c.toNat == 0x0622 || c.toNat == 0x0623 || c.toNat == 0x0625

/-- The JavaScript whitespace class: the set matched by the regex `\s`
and stripped by `String.prototype.trim`. -/
def isJsWS (c : Char) : Bool :=
  c.toNat == 0x9 || c.toNat == 0xA || c.toNat == 0xB || c.toNat == 0xC ||
  c.toNat == 0xD || c.toNat == 0x20 || c.toNat == 0xA0 || c.toNat == 0x1680 ||
  (0x2000 ≤ c.toNat && c.toNat ≤ 0x200A) ||
  c.toNat == 0x2028 || c.toNat == 0x2029 || c.toNat == 0x202F ||
  c.toNat == 0x205F || c.toNat == 0x3000 || c.toNat == 0xFEFF

/-- Model of `String.prototype.toLowerCase`, on the ASCII range (the only range
relevant here: Arabic script has no case). -/
def jsToLower (c : Char) : Char :=
  if 0x41 ≤ c.toNat ∧ c.toNat ≤ 0x5A then Char.ofNat (c.toNat + 0x20) else c

/-! ## JavaScript string primitives -/

/-- Remove trailing JavaScript whitespace (the tail half of
`String.prototype.trim`). -/
def dropTrailingWS : List Char → List Char
  | [] => []
  | c :: rest =>
    match dropTrailingWS rest with
    | [] => if isJsWS c then [] else [c]
    | d :: r => c :: d :: r

/-- Model of `String.prototype.trim`: remove leading and trailing JavaScript
whitespace. -/
def jsTrim (l : List Char) : List Char :=
  dropTrailingWS (l.dropWhile isJsWS)

/-- Worker for `collapseWS`; the flag records whether the previous
character belonged to a whitespace run (whose replacement space has
already been emitted). -/
def collapseWSAux : Bool → List Char → List Char
  | _, [] => []
  | prevWS, c :: rest =>
    if isJsWS c then
      if prevWS then collapseWSAux true rest
      else ' ' :: collapseWSAux true rest
    else c :: collapseWSAux false rest

/-- The regex replacement `replace(/\s+/g, " ")`: every maximal run of
JavaScript whitespace becomes a single space. -/
def collapseWS (l : List Char) : List Char := collapseWSAux false l

/-! ## Embedding of `levenshteinDistance` (src/unnamed/part_000, lines 2-27)

The source fills a `(m+1) × (n+1)` table `dp` with `dp[i][0] = i`,
`dp[0][j] = j` and
`dp[i][j] = min(dp[i-1][j]+1, dp[i][j-1]+1, dp[i-1][j-1]+cost)` where
`cost` is `0` when `s1[i-1] === s2[j-1]` and `1` otherwise, and returns
`dp[m][n]`.  `dpCell s1 s2 i j` is the value of the cell `dp[i][j]`.
The source only ever reads `s1[i-1]` for `1 ≤ i ≤ m` (always in
bounds), so the `getD` default is never consulted at the cells
reachable from `(m, n)`. -/

def dpCell (s1 s2 : List Char) : Nat → Nat → Nat
  | i, 0 => i
  | 0, j + 1 => j + 1
  | i + 1, j + 1 =>
    let cost : Nat := if s1.getD i ' ' = s2.getD j ' ' then 0 else 1
    min (dpCell s1 s2 i (j + 1) + 1)
      (min (dpCell s1 s2 (i + 1) j + 1) (dpCell s1 s2 i j + cost))
termination_by i j => i + j

/-- Function `levenshteinDistance` from the source: the bottom-right cell of the
dynamic-programming table. -/
def levenshteinDistance (s1 s2 : List Char) : Nat :=
  dpCell s1 s2 s1.length s2.length

/-! ## Embedding of `calculateSimilarity` (src/unnamed/part_000, lines 36-52) -/

/-- JavaScript `Math.round`: round half toward positive infinity. -/
def jsRound (q : ℚ) : ℤ := ⌊q + 1 / 2⌋

/-- The form `str.trim().toLowerCase()` as applied to both inputs of
`calculateSimilarity`. -/
def basicNorm (l : List Char) : List Char := (jsTrim l).map jsToLower

/-- Function `calculateSimilarity` from the source.  In JavaScript `!s` holds of
a string exactly when it is empty, so the two leading guards are
both-empty and exactly-one-empty checks. -/
def calculateSimilarity (str1 str2 : List Char) : ℤ :=
  if str1 = [] ∧ str2 = [] then 100
  else if str1 = [] ∨ str2 = [] then 0
  else
    let s1N := basicNorm str1
    let s2N := basicNorm str2
    if s1N = s2N then 100
    else
      let distance := levenshteinDistance s1N s2N
      let maxLength := max s1N.length s2N.length
      if maxLength = 0 then 100
      else max 0 (jsRound ((((maxLength : ℚ) - (distance : ℚ)) / (maxLength : ℚ)) * 100))

/-! ## Embedding of `normalizeArabicText` (src/unnamed/part_000, lines 60-87) -/

/-- Step `replace(/[ً-ْٰ]/g, "")`. -/
def removeDiacritics (l : List Char) : List Char :=
  l.filter fun c => !(isDiacritic c)

/-- Step `replace(/[آأإ]/g, "ا")`. -/
def unifyAlef (l : List Char) : List Char :=
  l.map fun c => if isAlefVariant c then alef else c

/-- Step `replace(/ي$/, "ى")`: when the final character of the
whole string is Yaa, replace that one character by Alef Maqsura. -/
def replaceFinalYaa (l : List Char) : List Char :=
  if l.getLast? = some yaa then l.dropLast ++ [alefMaqsura] else l

/-- Step `replace(/ة/g, "ه")`. -/
def taaToHaa (l : List Char) : List Char :=
  l.map fun c => if c = taaMarbuta then haa else c

/-- Step `replace(/ـ/g, "")`. -/
def removeTatweel (l : List Char) : List Char :=
  l.filter fun c => !(c == tatweel)

/-- Function `normalizeArabicText` from the source: the guard `if (!text) return ""`
followed by the six replacement steps in source order, ending with
`replace(/\s+/g, " ").trim()`. -/
def normalizeArabicText (l : List Char) : List Char :=
  if l = [] then []
  else jsTrim (collapseWS (removeTatweel (taaToHaa (replaceFinalYaa (unifyAlef (removeDiacritics l))))))

/-! ## Embedding of `calculateArabicSimilarity` (src/unnamed/part_000, lines 96-107) -/

def calculateArabicSimilarity (str1 str2 : List Char) : ℤ :=
  if str1 = [] ∧ str2 = [] then 100
  else if str1 = [] ∨ str2 = [] then 0
  else calculateSimilarity (normalizeArabicText str1) (normalizeArabicText str2)

/-! ## The classic Levenshtein distance, as the specification words it

The textbook recursive definition of edit distance under unit-cost
insertion, deletion and substitution. -/

def editDistance : List Char → List Char → Nat
  | [], t => t.length
  | s, [] => s.length
  | a :: s, b :: t =>
    min (editDistance s (b :: t) + 1)
      (min (editDistance (a :: s) t + 1)
        (editDistance s t + (if a = b then 0 else 1)))
termination_by s t => s.length + t.length

/-- No two adjacent whitespace characters. -/
def noAdjWS : List Char → Bool
  | [] => true
  | [_] => true
  | a :: b :: rest => (!(isJsWS a && isJsWS b)) && noAdjWS (b :: rest)

/-! ## The normalization pipeline as the specification words it

A second rendering of the six steps of the TextNormalizer contract,
written independently from the specification text: delete diacritic
code points, map the three Alef variants to plain Alef, replace Yaa by
Alef Maqsura only at the end of the whole string, replace every Taa
Marbuta by Haa, delete every Tatweel, collapse whitespace runs and
trim. -/

def specRemoveDiacritics (l : List Char) : List Char :=
  l.foldr (fun c acc => if isDiacritic c then acc else c :: acc) []

def specUnifyAlef (l : List Char) : List Char :=
  l.foldr (fun c acc => (if isAlefVariant c then alef else c) :: acc) []

def specFinalYaa (l : List Char) : List Char :=
  match l.reverse with
  | [] => l
  | c :: rest => if c = yaa then (alefMaqsura :: rest).reverse else l

def specTaaToHaa (l : List Char) : List Char :=
  l.foldr (fun c acc => (if c = taaMarbuta then haa else c) :: acc) []

def specRemoveTatweel (l : List Char) : List Char :=
  l.foldr (fun c acc => if c = tatweel then acc else c :: acc) []

def specNormalize (l : List Char) : List Char :=
  jsTrim (collapseWS (specRemoveTatweel (specTaaToHaa (specFinalYaa
    (specUnifyAlef (specRemoveDiacritics l))))))


/-! ## Basic facts about the classic edit distance -/

lemma editDistance_nil_left (t : List Char) : editDistance [] t = t.length := by
  simp [editDistance]

lemma editDistance_nil_right (s : List Char) : editDistance s [] = s.length := by
  cases s <;> simp [editDistance]

lemma editDistance_cons_cons (a b : Char) (s t : List Char) :
    editDistance (a :: s) (b :: t) =
      min (editDistance s (b :: t) + 1)
        (min (editDistance (a :: s) t + 1)
          (editDistance s t + (if a = b then 0 else 1))) := by
  simp [editDistance]

/-- The recurrence of `editDistance` also holds at the back of the two
lists: removing the last characters instead of the first ones satisfies
the same three-way minimum.  This is what connects the
prefix-indexed dynamic-programming table of the source to the
front-recursive textbook definition. -/
lemma editDistance_snoc_snoc (a b : Char) :
    ∀ s t : List Char,
      editDistance (s ++ [a]) (t ++ [b]) =
        min (editDistance s (t ++ [b]) + 1)
          (min (editDistance (s ++ [a]) t + 1)
            (editDistance s t + (if a = b then 0 else 1))) := by
  intro s
  induction s with
  | nil =>
    intro t
    induction t with
    | nil =>
      simp [editDistance_cons_cons, editDistance_nil_left, editDistance_nil_right]
    | cons y t' IH =>
      simp only [List.nil_append, List.cons_append] at IH ⊢
      simp only [editDistance_cons_cons, editDistance_nil_left, IH,
        List.length_cons, List.length_append, List.length_nil]
      generalize editDistance [a] t' = X
      generalize (if a = y then (0 : Nat) else 1) = cay
      generalize (if a = b then (0 : Nat) else 1) = cab
      generalize t'.length = n
      omega
  | cons x s' IHs =>
    intro t
    induction t with
    | nil =>
      have IH0 := IHs []
      simp only [List.nil_append, List.cons_append] at IH0 ⊢
      simp only [editDistance_cons_cons, editDistance_nil_left, editDistance_nil_right, IH0,
        List.length_cons, List.length_append, List.length_nil]
      generalize editDistance s' [a] = X
      generalize (if x = b then (0 : Nat) else 1) = cxb
      generalize (if a = b then (0 : Nat) else 1) = cab
      generalize s'.length = n
      omega
    | cons y t' IHt =>
      have IH1 := IHs (y :: t')
      have IH3 := IHs t'
      simp only [List.nil_append, List.cons_append] at IH1 IH3 IHt ⊢
      simp only [editDistance_cons_cons, IH1, IH3, IHt]
      generalize editDistance s' (y :: (t' ++ [b])) = A1
      generalize editDistance (s' ++ [a]) (y :: t') = A2
      generalize editDistance s' (y :: t') = A3
      generalize editDistance (x :: s') (t' ++ [b]) = A4
      generalize editDistance (x :: (s' ++ [a])) t' = A5
      generalize editDistance (x :: s') t' = A6
      generalize editDistance s' (t' ++ [b]) = A7
      generalize editDistance (s' ++ [a]) t' = A8
      generalize editDistance s' t' = A9
      generalize (if x = y then (0 : Nat) else 1) = cxy
      generalize (if a = b then (0 : Nat) else 1) = cab
      simp only [← min_add_add_right]
      refine le_antisymm ?_ ?_ <;>
        · simp only [le_min_iff, min_le_iff]
          omega

/-- Cell `(i, j)` of the source's dynamic-programming table holds the
classic edit distance between the length-`i` prefix of `s1` and the
length-`j` prefix of `s2`. -/
lemma dpCell_eq_editDistance (s1 s2 : List Char) :
    ∀ i j, i ≤ s1.length → j ≤ s2.length →
      dpCell s1 s2 i j = editDistance (s1.take i) (s2.take j) := by
  intro i j
  induction i, j using dpCell.induct s1 s2 with
  | case1 i =>
    intro hi _
    simp only [dpCell]
    rw [List.take_zero, editDistance_nil_right, List.length_take]
    omega
  | case2 j =>
    intro _ hj
    simp only [dpCell]
    rw [List.take_zero, editDistance_nil_left, List.length_take]
    omega
  | case3 i j IH1 IH2 IH3 =>
    intro hi hj
    have hi' : i < s1.length := by omega
    have hj' : j < s2.length := by omega
    have e1 : s1.take (i + 1) = s1.take i ++ [s1.get ⟨i, hi'⟩] := by
      rw [List.take_succ, List.getElem?_eq_getElem hi']
      simp
    have e2 : s2.take (j + 1) = s2.take j ++ [s2.get ⟨j, hj'⟩] := by
      rw [List.take_succ, List.getElem?_eq_getElem hj']
      simp
    have hc1 : s1.getD i ' ' = s1.get ⟨i, hi'⟩ := by
      rw [List.getD_eq_getElem?_getD, List.getElem?_eq_getElem hi']
      simp
    have hc2 : s2.getD j ' ' = s2.get ⟨j, hj'⟩ := by
      rw [List.getD_eq_getElem?_getD, List.getElem?_eq_getElem hj']
      simp
    simp only [dpCell]
    rw [IH1 (by omega) hj, IH2 hi (by omega), IH3 (by omega) (by omega)]
    rw [e1, e2, editDistance_snoc_snoc, hc1, hc2]

/-- The source's `levenshteinDistance` computes the classic edit
distance. -/
lemma levenshteinDistance_eq_editDistance (s1 s2 : List Char) :
    levenshteinDistance s1 s2 = editDistance s1 s2 := by
  unfold levenshteinDistance
  rw [dpCell_eq_editDistance s1 s2 _ _ le_rfl le_rfl, List.take_length, List.take_length]

/-- Edit distance is symmetric (insertions and deletions swap roles). -/
lemma editDistance_comm : ∀ s t : List Char, editDistance s t = editDistance t s := by
  intro s
  induction s with
  | nil => intro t; rw [editDistance_nil_left, editDistance_nil_right]
  | cons x s' IHs =>
    intro t
    induction t with
    | nil => rw [editDistance_nil_left, editDistance_nil_right]
    | cons y t' IHt =>
      rw [editDistance_cons_cons x y, editDistance_cons_cons y x]
      rw [IHs (y :: t'), IHs t', IHt]
      have hc : (if y = x then (0 : Nat) else 1) = (if x = y then 0 else 1) := by
        simp [eq_comm]
      rw [hc]
      generalize editDistance (y :: t') s' = A
      generalize editDistance t' (x :: s') = B
      generalize editDistance t' s' = C
      generalize (if x = y then (0 : Nat) else 1) = cxy
      omega

/-- Strings at edit distance zero are equal. -/
lemma editDistance_eq_zero : ∀ s t : List Char, editDistance s t = 0 → s = t := by
  intro s
  induction s with
  | nil =>
    intro t h
    rw [editDistance_nil_left] at h
    exact (List.eq_nil_of_length_eq_zero h).symm
  | cons x s' IHs =>
    intro t
    cases t with
    | nil =>
      intro h
      rw [editDistance_nil_right] at h
      simp at h
    | cons y t' =>
      intro h
      rw [editDistance_cons_cons] at h
      have h3 : editDistance s' t' + (if x = y then 0 else 1) = 0 := by omega
      have hxy : x = y := by
        by_contra hne
        rw [if_neg hne] at h3
        omega
      have hst : s' = t' := IHs t' (by omega)
      rw [hxy, hst]

/-- For strings of equal length, the edit distance is at most the
number of positions where they differ (substitute each mismatch). -/
lemma editDistance_le_mismatches :
    ∀ s t : List Char, s.length = t.length →
      editDistance s t ≤ (s.zip t).countP fun p => p.1 != p.2 := by
  intro s
  induction s with
  | nil =>
    intro t h
    rw [editDistance_nil_left]
    have ht : t.length = 0 := by simpa using h.symm
    omega
  | cons x s' IHs =>
    intro t
    cases t with
    | nil => intro h; simp at h
    | cons y t' =>
      intro h
      rw [editDistance_cons_cons]
      have hlen : s'.length = t'.length := by simpa using h
      have hzip : ((x :: s').zip (y :: t')).countP (fun p => p.1 != p.2) =
          ((s'.zip t').countP fun p => p.1 != p.2) + (if x = y then 0 else 1) := by
        simp only [List.zip_cons_cons, List.countP_cons]
        by_cases hxy : x = y
        · simp [hxy]
        · simp [hxy]
      rw [hzip]
      have := IHs t' hlen
      generalize hA : editDistance s' (y :: t') = A at *
      generalize hB : editDistance (x :: s') t' = B at *
      generalize hC : editDistance s' t' = C at *
      generalize (if x = y then (0 : Nat) else 1) = cxy
      omega

/-! ## Range of the similarity score -/

lemma jsRound_le_100 (q : ℚ) (h : q ≤ 100) : jsRound q ≤ 100 := by
  unfold jsRound
  have h2 : q + 1 / 2 < ((101 : ℤ) : ℚ) := by push_cast; linarith
  have := Int.floor_lt.mpr h2
  omega

lemma jsRound_eq_of_int (z : ℤ) : jsRound ((z : ℚ)) = z := by
  unfold jsRound
  have h1 : (z : ℚ) + 1 / 2 < z + 1 := by norm_num
  have h2 : ((z : ℤ) : ℚ) ≤ (z : ℚ) + 1 / 2 := by norm_num
  have hlo := Int.le_floor.mpr h2
  have hhi := Int.floor_lt.mpr (by push_cast; linarith : (z : ℚ) + 1 / 2 < ((z + 1 : ℤ) : ℚ))
  omega

lemma score_le_100 (m d : ℕ) (hm : m ≠ 0) :
    (((m : ℚ) - (d : ℚ)) / (m : ℚ)) * 100 ≤ 100 := by
  have hmpos : (0 : ℚ) < (m : ℚ) := by
    exact_mod_cast Nat.pos_of_ne_zero hm
  have hd : (0 : ℚ) ≤ (d : ℚ) := Nat.cast_nonneg d
  have h1 : ((m : ℚ) - (d : ℚ)) / (m : ℚ) ≤ 1 := by
    rw [div_le_one hmpos]; linarith
  calc (((m : ℚ) - (d : ℚ)) / (m : ℚ)) * 100 ≤ 1 * 100 :=
        mul_le_mul_of_nonneg_right h1 (by norm_num)
    _ = 100 := one_mul 100

/-! ## Branch characterizations of `calculateSimilarity` -/

lemma calcSim_both_empty : calculateSimilarity [] [] = 100 := by
  simp [calculateSimilarity]

lemma calcSim_left_empty (b : List Char) (hb : b ≠ []) :
    calculateSimilarity [] b = 0 := by
  simp [calculateSimilarity, hb]

lemma calcSim_right_empty (a : List Char) (ha : a ≠ []) :
    calculateSimilarity a [] = 0 := by
  simp [calculateSimilarity, ha]

lemma calcSim_norm_eq (a b : List Char) (ha : a ≠ []) (hb : b ≠ [])
    (h : basicNorm a = basicNorm b) : calculateSimilarity a b = 100 := by
  simp [calculateSimilarity, ha, hb, h]

/-- Past all the guards, the score is the clamped rounded percentage of
the edit distance between the two trim-and-lowercase forms. -/
lemma calcSim_formula (a b : List Char) (ha : a ≠ []) (hb : b ≠ [])
    (hne : basicNorm a ≠ basicNorm b) :
    calculateSimilarity a b =
      max 0 (jsRound
        (((((max (basicNorm a).length (basicNorm b).length : ℕ) : ℚ) -
            ((levenshteinDistance (basicNorm a) (basicNorm b) : ℕ) : ℚ)) /
          ((max (basicNorm a).length (basicNorm b).length : ℕ) : ℚ)) * 100)) := by
  have hmax : max (basicNorm a).length (basicNorm b).length ≠ 0 := by
    intro h0
    have h1 : (basicNorm a).length = 0 := by omega
    have h2 : (basicNorm b).length = 0 := by omega
    exact hne (by rw [List.eq_nil_of_length_eq_zero h1, List.eq_nil_of_length_eq_zero h2])
  simp only [calculateSimilarity, ha, hb, hne, hmax, if_false, and_false, false_and,
    if_neg, or_self, ite_false, Nat.cast_max]

lemma calculateSimilarity_nonneg (a b : List Char) :
    0 ≤ calculateSimilarity a b := by
  by_cases ha : a = []
  · by_cases hb : b = []
    · subst ha; subst hb; rw [calcSim_both_empty]; norm_num
    · subst ha; rw [calcSim_left_empty b hb]
  · by_cases hb : b = []
    · subst hb; rw [calcSim_right_empty a ha]
    · by_cases hnm : basicNorm a = basicNorm b
      · rw [calcSim_norm_eq a b ha hb hnm]; norm_num
      · rw [calcSim_formula a b ha hb hnm]; exact le_max_left 0 _

lemma calculateSimilarity_le_100 (a b : List Char) :
    calculateSimilarity a b ≤ 100 := by
  by_cases ha : a = []
  · by_cases hb : b = []
    · subst ha; subst hb; rw [calcSim_both_empty]
    · subst ha; rw [calcSim_left_empty b hb]; norm_num
  · by_cases hb : b = []
    · subst hb; rw [calcSim_right_empty a ha]; norm_num
    · by_cases hnm : basicNorm a = basicNorm b
      · rw [calcSim_norm_eq a b ha hb hnm]
      · rw [calcSim_formula a b ha hb hnm]
        have hmax : max (basicNorm a).length (basicNorm b).length ≠ 0 := by
          intro h0
          have h1 : (basicNorm a).length = 0 := by omega
          have h2 : (basicNorm b).length = 0 := by omega
          exact hnm (by rw [List.eq_nil_of_length_eq_zero h1, List.eq_nil_of_length_eq_zero h2])
        exact max_le (by norm_num) (jsRound_le_100 _ (score_le_100 _ _ hmax))

/-! ## Character-level facts about the normalization pipeline -/

lemma map_fix {f : Char → Char} : ∀ l : List Char, (∀ c ∈ l, f c = c) → l.map f = l := by
  intro l
  induction l with
  | nil => intro _; rfl
  | cons c rest IH =>
    intro h
    simp only [List.map_cons]
    rw [h c (by simp), IH fun d hd => h d (by simp [hd])]

lemma mem_removeDiacritics {c : Char} {l : List Char} (h : c ∈ removeDiacritics l) :
    c ∈ l ∧ isDiacritic c = false := by
  unfold removeDiacritics at h
  have h2 := List.mem_filter.mp h
  simpa using h2

lemma mem_unifyAlef {c : Char} {l : List Char} (h : c ∈ unifyAlef l) :
    c = alef ∨ (c ∈ l ∧ isAlefVariant c = false) := by
  unfold unifyAlef at h
  obtain ⟨b, hb, hbc⟩ := List.mem_map.mp h
  by_cases hv : isAlefVariant b
  · left; rw [← hbc, if_pos hv]
  · right
    rw [if_neg hv] at hbc
    subst hbc
    exact ⟨hb, by simpa using hv⟩

lemma mem_replaceFinalYaa {c : Char} {l : List Char} (h : c ∈ replaceFinalYaa l) :
    c = alefMaqsura ∨ c ∈ l := by
  unfold replaceFinalYaa at h
  by_cases hy : l.getLast? = some yaa
  · rw [if_pos hy] at h
    rcases List.mem_append.mp h with h1 | h1
    · right; exact (List.dropLast_sublist l).mem h1
    · left; simpa using h1
  · right; rwa [if_neg hy] at h

lemma mem_taaToHaa {c : Char} {l : List Char} (h : c ∈ taaToHaa l) :
    c = haa ∨ (c ∈ l ∧ c ≠ taaMarbuta) := by
  unfold taaToHaa at h
  obtain ⟨b, hb, hbc⟩ := List.mem_map.mp h
  by_cases hv : b = taaMarbuta
  · left; rw [← hbc, if_pos hv]
  · right
    rw [if_neg hv] at hbc
    subst hbc
    exact ⟨hb, hv⟩

lemma mem_removeTatweel {c : Char} {l : List Char} (h : c ∈ removeTatweel l) :
    c ∈ l ∧ c ≠ tatweel := by
  unfold removeTatweel at h
  have h2 := List.mem_filter.mp h
  simpa using h2

lemma mem_collapseWSAux {c : Char} : ∀ (l : List Char) (b : Bool),
    c ∈ collapseWSAux b l → c = ' ' ∨ c ∈ l := by
  intro l
  induction l with
  | nil => intro b h; simp [collapseWSAux] at h
  | cons d rest IH =>
    intro b h
    unfold collapseWSAux at h
    by_cases hw : isJsWS d
    · rw [if_pos hw] at h
      by_cases hb : b
      · subst hb
        rw [if_pos rfl] at h
        rcases IH true h with h1 | h1
        · left; exact h1
        · right; simp [h1]
      · simp only [hb, if_false, Bool.false_eq_true] at h
        rcases List.mem_cons.mp h with h1 | h1
        · left; exact h1
        · rcases IH true h1 with h2 | h2
          · left; exact h2
          · right; simp [h2]
    · rw [if_neg hw] at h
      rcases List.mem_cons.mp h with h1 | h1
      · right; simp [h1]
      · rcases IH false h1 with h2 | h2
        · left; exact h2
        · right; simp [h2]

lemma mem_dropWhile {c : Char} {p : Char → Bool} : ∀ l : List Char,
    c ∈ l.dropWhile p → c ∈ l := by
  intro l
  induction l with
  | nil => intro h; simpa using h
  | cons d rest IH =>
    intro h
    rw [List.dropWhile_cons] at h
    by_cases hp : p d
    · rw [if_pos hp] at h; exact List.mem_cons_of_mem d (IH h)
    · rwa [if_neg hp] at h

lemma mem_dropTrailingWS {c : Char} : ∀ l : List Char,
    c ∈ dropTrailingWS l → c ∈ l := by
  intro l
  induction l with
  | nil => intro h; simpa [dropTrailingWS] using h
  | cons d rest IH =>
    intro h
    unfold dropTrailingWS at h
    rcases hr : dropTrailingWS rest with _ | ⟨e, r⟩
    · rw [hr] at h
      by_cases hw : isJsWS d
      · simp [hw] at h
      · simp [hw] at h
        simp [h]
    · rw [hr] at h
      rcases List.mem_cons.mp h with h1 | h1
      · simp [h1]
      · have h2 : c ∈ dropTrailingWS rest := by rw [hr]; exact h1
        exact List.mem_cons_of_mem d (IH h2)

lemma mem_jsTrim {c : Char} {l : List Char} (h : c ∈ jsTrim l) : c ∈ l := by
  unfold jsTrim at h
  exact mem_dropWhile l (mem_dropTrailingWS _ h)

/-! ## Canonical form of whitespace after collapse and trim -/

lemma noAdjWS_tail {a : Char} {l : List Char} (h : noAdjWS (a :: l)) : noAdjWS l := by
  cases l with
  | nil => rfl
  | cons b rest =>
    have h' := h
    simp only [noAdjWS, Bool.and_eq_true] at h'
    exact h'.2

lemma noAdjWS_cons_of {a : Char} {l : List Char} (h1 : noAdjWS l)
    (h2 : ∀ d r, l = d :: r → (isJsWS a && isJsWS d) = false) : noAdjWS (a :: l) := by
  cases l with
  | nil => rfl
  | cons d r =>
    have := h2 d r rfl
    simp [noAdjWS, this, h1]

lemma collapseWSAux_ws_space {c : Char} : ∀ (l : List Char) (b : Bool),
    c ∈ collapseWSAux b l → isJsWS c → c = ' ' := by
  intro l
  induction l with
  | nil => intro b h; simp [collapseWSAux] at h
  | cons d rest IH =>
    intro b h hc
    unfold collapseWSAux at h
    by_cases hw : isJsWS d
    · rw [if_pos hw] at h
      by_cases hb : b
      · subst hb; rw [if_pos rfl] at h; exact IH true h hc
      · simp only [hb, if_false, Bool.false_eq_true] at h
        rcases List.mem_cons.mp h with h1 | h1
        · exact h1
        · exact IH true h1 hc
    · rw [if_neg hw] at h
      rcases List.mem_cons.mp h with h1 | h1
      · subst h1; simp [hc] at hw
      · exact IH false h1 hc

/-- Under the `true` flag the collapsed list never starts with a
whitespace character. -/
lemma collapseWSAux_true_head : ∀ l : List Char,
    collapseWSAux true l = [] ∨
      ∃ d r, collapseWSAux true l = d :: r ∧ isJsWS d = false := by
  intro l
  induction l with
  | nil => left; rfl
  | cons c rest IH =>
    by_cases hw : isJsWS c
    · simpa [collapseWSAux, hw] using IH
    · right; exact ⟨c, collapseWSAux false rest, by simp [collapseWSAux, hw], by simpa using hw⟩

lemma noAdjWS_collapseWSAux : ∀ (l : List Char) (b : Bool), noAdjWS (collapseWSAux b l) := by
  intro l
  induction l with
  | nil => intro b; rfl
  | cons c rest IH =>
    intro b
    unfold collapseWSAux
    by_cases hw : isJsWS c
    · rw [if_pos hw]
      by_cases hb : b
      · subst hb; rw [if_pos rfl]; exact IH true
      · simp only [hb, if_false, Bool.false_eq_true]
        apply noAdjWS_cons_of (IH true)
        intro d r hdr
        rcases collapseWSAux_true_head rest with h0 | ⟨e, r', he, hwe⟩
        · rw [h0] at hdr; exact absurd hdr (by simp)
        · rw [he] at hdr
          obtain ⟨rfl, rfl⟩ := by exact List.cons.inj hdr
          simp [hwe]
    · rw [if_neg hw]
      apply noAdjWS_cons_of (IH false)
      intro d r hdr
      simp [Bool.eq_false_iff.mpr hw]

lemma noAdjWS_append_left : ∀ u v : List Char, noAdjWS (u ++ v) → noAdjWS u := by
  intro u
  induction u with
  | nil => intro v _; rfl
  | cons a u' IH =>
    intro v h
    cases u' with
    | nil => rfl
    | cons b u'' =>
      simp only [List.cons_append, noAdjWS, Bool.and_eq_true] at h ⊢
      exact ⟨h.1, by simpa [noAdjWS] using IH v (by simpa [noAdjWS] using h.2)⟩

lemma noAdjWS_append_right : ∀ u v : List Char, noAdjWS (u ++ v) → noAdjWS v := by
  intro u
  induction u with
  | nil => intro v h; simpa using h
  | cons a u' IH =>
    intro v h
    exact IH v (noAdjWS_tail (by simpa using h))

/-- A list whose whitespace is all plain spaces with no two adjacent is
a fixed point of whitespace collapsing. -/
lemma collapseWS_fix : ∀ l : List Char,
    (∀ c ∈ l, isJsWS c → c = ' ') → noAdjWS l → collapseWS l = l := by
  unfold collapseWS
  intro l
  induction l with
  | nil => intro _ _; rfl
  | cons c rest IH =>
    intro hsp hadj
    unfold collapseWSAux
    by_cases hw : isJsWS c
    · rw [if_pos hw, if_neg (by simp)]
      have hc : c = ' ' := hsp c (by simp) hw
      have hrest : collapseWSAux false rest = rest :=
        IH (fun d hd hwd => hsp d (by simp [hd]) hwd) (noAdjWS_tail hadj)
      cases rest with
      | nil => simp [collapseWSAux, hc]
      | cons d r =>
        have hd : isJsWS d = false := by
          have h' := hadj
          simp only [noAdjWS] at h'
          simp at h'
          rcases h'.1 with h1 | h1
          · rw [hw] at h1; cases h1
          · exact h1
        have h2 : collapseWSAux true (d :: r) = d :: collapseWSAux false r := by
          simp [collapseWSAux, hd]
        have h3 : collapseWSAux false (d :: r) = d :: collapseWSAux false r := by
          simp [collapseWSAux, hd]
        rw [h2, hc]
        rw [h3] at hrest
        exact congrArg (' ' :: ·) hrest
    · rw [if_neg hw]
      rw [IH (fun d hd hwd => hsp d (by simp [hd]) hwd) (noAdjWS_tail hadj)]

lemma dropWhile_fix {p : Char → Bool} {l : List Char}
    (h : ∀ d, l.head? = some d → p d = false) : l.dropWhile p = l := by
  cases l with
  | nil => rfl
  | cons c rest =>
    rw [List.dropWhile_cons, if_neg]
    rw [h c rfl]
    simp

lemma dropWhile_head_not {p : Char → Bool} : ∀ l : List Char, ∀ d,
    (l.dropWhile p).head? = some d → p d = false := by
  intro l
  induction l with
  | nil => intro d h; simp at h
  | cons c rest IH =>
    intro d h
    rw [List.dropWhile_cons] at h
    by_cases hp : p c
    · rw [if_pos hp] at h; exact IH d h
    · rw [if_neg hp] at h
      simp only [List.head?_cons, Option.some.injEq] at h
      subst h
      simpa using hp

lemma exists_append_dropWhile {p : Char → Bool} : ∀ l : List Char,
    ∃ u, l = u ++ l.dropWhile p := by
  intro l
  induction l with
  | nil => exact ⟨[], rfl⟩
  | cons c rest IH =>
    rw [List.dropWhile_cons]
    by_cases hp : p c
    · rw [if_pos hp]
      obtain ⟨u, hu⟩ := IH
      exact ⟨c :: u, by simp [← hu]⟩
    · rw [if_neg hp]; exact ⟨[], rfl⟩

lemma exists_dropTrailingWS_append : ∀ l : List Char,
    ∃ v, l = dropTrailingWS l ++ v := by
  intro l
  induction l with
  | nil => exact ⟨[], rfl⟩
  | cons c rest IH =>
    obtain ⟨v, hv⟩ := IH
    unfold dropTrailingWS
    rcases hr : dropTrailingWS rest with _ | ⟨e, r⟩
    · by_cases hw : isJsWS c
      · rw [if_pos hw]
        exact ⟨c :: rest, rfl⟩
      · rw [if_neg hw]
        refine ⟨v, ?_⟩
        rw [hr] at hv
        simpa using congrArg (c :: ·) hv
    · rw [hr] at hv
      exact ⟨v, by simpa using congrArg (c :: ·) hv⟩

/-- The `dropTrailingWS` output is empty or ends in a non-whitespace
character. -/
lemma dropTrailingWS_last : ∀ l : List Char,
    dropTrailingWS l = [] ∨
      ∃ u d, dropTrailingWS l = u ++ [d] ∧ isJsWS d = false := by
  intro l
  induction l with
  | nil => left; rfl
  | cons c rest IH =>
    unfold dropTrailingWS
    rcases hr : dropTrailingWS rest with _ | ⟨e, r⟩
    · by_cases hw : isJsWS c
      · left; rw [if_pos hw]
      · right
        rw [if_neg hw]
        exact ⟨[], c, rfl, by simpa using hw⟩
    · right
      rcases IH with h0 | ⟨u, d, hud, hwd⟩
      · rw [h0] at hr; cases hr
      · refine ⟨c :: u, d, ?_, hwd⟩
        have h2 : u ++ [d] = e :: r := by rw [← hud, hr]
        show c :: e :: r = (c :: u) ++ [d]
        simp [h2]

lemma dropTrailingWS_cons (c : Char) (rest : List Char) :
    dropTrailingWS (c :: rest) =
      match dropTrailingWS rest with
      | [] => if isJsWS c then [] else [c]
      | d :: r => c :: d :: r := rfl

/-- A list that ends in a non-whitespace character is a fixed point of
trailing-whitespace removal. -/
lemma dropTrailingWS_fix : ∀ (u : List Char) (d : Char), isJsWS d = false →
    dropTrailingWS (u ++ [d]) = u ++ [d] := by
  intro u
  induction u with
  | nil =>
    intro d hd
    simp [dropTrailingWS, hd]
  | cons c u' IH =>
    intro d hd
    have h1 := IH d hd
    rcases he : u' ++ [d] with _ | ⟨e, r⟩
    · cases u' <;> simp at he
    · rw [List.cons_append, dropTrailingWS_cons, h1, he]

/-! ## The normalized text is canonical -/

lemma mem_collapseWS {c : Char} {l : List Char} (h : c ∈ collapseWS l) :
    c = ' ' ∨ c ∈ l :=
  mem_collapseWSAux l false h

lemma normalizeArabicText_eq (s : List Char) (hs : s ≠ []) :
    normalizeArabicText s =
      jsTrim (collapseWS (removeTatweel (taaToHaa (replaceFinalYaa
        (unifyAlef (removeDiacritics s)))))) := by
  simp [normalizeArabicText, hs]

/-- Every character of a normalized text is neither a diacritic, nor an
Alef variant, nor Taa Marbuta, nor Tatweel. -/
lemma normalize_chars (s : List Char) : ∀ c ∈ normalizeArabicText s,
    isDiacritic c = false ∧ isAlefVariant c = false ∧
      c ≠ taaMarbuta ∧ c ≠ tatweel := by
  intro c hc
  by_cases hs : s = []
  · subst hs; simp [normalizeArabicText] at hc
  · rw [normalizeArabicText_eq s hs] at hc
    have h1 := mem_jsTrim hc
    rcases mem_collapseWS h1 with rfl | h2
    · exact ⟨by decide, by decide, by decide, by decide⟩
    · obtain ⟨h3, htat⟩ := mem_removeTatweel h2
      rcases mem_taaToHaa h3 with rfl | ⟨h4, htaa⟩
      · exact ⟨by decide, by decide, by decide, by decide⟩
      · rcases mem_replaceFinalYaa h4 with rfl | h5
        · exact ⟨by decide, by decide, by decide, by decide⟩
        · rcases mem_unifyAlef h5 with rfl | ⟨h6, hvar⟩
          · exact ⟨by decide, by decide, by decide, by decide⟩
          · exact ⟨(mem_removeDiacritics h6).2, hvar, htaa, htat⟩

lemma trimCollapse_ws_space {c : Char} (x : List Char)
    (hc : c ∈ jsTrim (collapseWS x)) (hw : isJsWS c) : c = ' ' :=
  collapseWSAux_ws_space x false (mem_jsTrim hc) hw

lemma trimCollapse_noAdj (x : List Char) : noAdjWS (jsTrim (collapseWS x)) := by
  have h1 : noAdjWS (collapseWS x) := noAdjWS_collapseWSAux x false
  obtain ⟨p, hp⟩ := @exists_append_dropWhile isJsWS (collapseWS x)
  have h2 : noAdjWS ((collapseWS x).dropWhile isJsWS) :=
    noAdjWS_append_right p _ (by rw [← hp]; exact h1)
  obtain ⟨v, hv⟩ :=
    exists_dropTrailingWS_append ((collapseWS x).dropWhile isJsWS)
  have h3 : noAdjWS (dropTrailingWS ((collapseWS x).dropWhile isJsWS)) :=
    noAdjWS_append_left _ v (by rw [← hv]; exact h2)
  exact h3

lemma trimCollapse_head (x : List Char) :
    ∀ d, (jsTrim (collapseWS x)).head? = some d → isJsWS d = false := by
  intro d hd
  unfold jsTrim at hd
  obtain ⟨v, hv⟩ :=
    exists_dropTrailingWS_append ((collapseWS x).dropWhile isJsWS)
  have hne : dropTrailingWS ((collapseWS x).dropWhile isJsWS) ≠ [] := by
    intro h0; rw [h0] at hd; simp at hd
  have hw : ((collapseWS x).dropWhile isJsWS).head? = some d := by
    rw [hv, List.head?_append_of_ne_nil _ hne, hd]
  exact dropWhile_head_not _ d hw

lemma trimCollapse_last (x : List Char) :
    jsTrim (collapseWS x) = [] ∨
      ∃ u d, jsTrim (collapseWS x) = u ++ [d] ∧ isJsWS d = false :=
  dropTrailingWS_last _

lemma jsTrim_fix (t : List Char)
    (hhead : ∀ d, t.head? = some d → isJsWS d = false)
    (hlast : t = [] ∨ ∃ u d, t = u ++ [d] ∧ isJsWS d = false) :
    jsTrim t = t := by
  unfold jsTrim
  rw [dropWhile_fix hhead]
  rcases hlast with rfl | ⟨u, d, rfl, hd⟩
  · rfl
  · exact dropTrailingWS_fix u d hd

/-- Normalization is idempotent provided the normalized text does not
end in Yaa. -/
lemma normalizeArabicText_fix (s : List Char)
    (hy : (normalizeArabicText s).getLast? ≠ some yaa) :
    normalizeArabicText (normalizeArabicText s) = normalizeArabicText s := by
  by_cases hs : s = []
  · subst hs; simp [normalizeArabicText]
  by_cases h0 : normalizeArabicText s = []
  · rw [h0]; simp [normalizeArabicText]
  have htc := normalizeArabicText_eq s hs
  have hchars := normalize_chars s
  have hws : ∀ c ∈ normalizeArabicText s, isJsWS c → c = ' ' := by
    intro c hc hw
    rw [htc] at hc
    exact trimCollapse_ws_space _ hc hw
  have hadj : noAdjWS (normalizeArabicText s) := by
    rw [htc]; exact trimCollapse_noAdj _
  have hhead : ∀ d, (normalizeArabicText s).head? = some d → isJsWS d = false := by
    rw [htc]; exact trimCollapse_head _
  have hlast : normalizeArabicText s = [] ∨
      ∃ u d, normalizeArabicText s = u ++ [d] ∧ isJsWS d = false := by
    rw [htc]; exact trimCollapse_last _
  have e1 : removeDiacritics (normalizeArabicText s) = normalizeArabicText s :=
    List.filter_eq_self.mpr fun c hc => by simp [(hchars c hc).1]
  have e2 : unifyAlef (normalizeArabicText s) = normalizeArabicText s :=
    map_fix _ fun c hc => by simp [(hchars c hc).2.1]
  have e3 : replaceFinalYaa (normalizeArabicText s) = normalizeArabicText s := by
    unfold replaceFinalYaa
    rw [if_neg hy]
  have e4 : taaToHaa (normalizeArabicText s) = normalizeArabicText s :=
    map_fix _ fun c hc => by simp [(hchars c hc).2.2.1]
  have e5 : removeTatweel (normalizeArabicText s) = normalizeArabicText s :=
    List.filter_eq_self.mpr fun c hc => by simp [(hchars c hc).2.2.2]
  have e6 : collapseWS (normalizeArabicText s) = normalizeArabicText s :=
    collapseWS_fix _ hws hadj
  have e7 : jsTrim (normalizeArabicText s) = normalizeArabicText s :=
    jsTrim_fix _ hhead hlast
  rw [normalizeArabicText_eq _ h0, e1, e2, e3, e4, e5, e6, e7]

lemma specRemoveDiacritics_eq : ∀ l, specRemoveDiacritics l = removeDiacritics l := by
  intro l
  induction l with
  | nil => rfl
  | cons c rest IH =>
    simp only [specRemoveDiacritics, List.foldr_cons, removeDiacritics, List.filter_cons] at *
    by_cases h : isDiacritic c <;> simp [h, IH]

lemma specUnifyAlef_eq : ∀ l, specUnifyAlef l = unifyAlef l := by
  intro l
  induction l with
  | nil => rfl
  | cons c rest IH =>
    simp only [specUnifyAlef, List.foldr_cons, unifyAlef, List.map_cons] at *
    rw [IH]

lemma specTaaToHaa_eq : ∀ l, specTaaToHaa l = taaToHaa l := by
  intro l
  induction l with
  | nil => rfl
  | cons c rest IH =>
    simp only [specTaaToHaa, List.foldr_cons, taaToHaa, List.map_cons] at *
    rw [IH]

lemma specRemoveTatweel_eq : ∀ l, specRemoveTatweel l = removeTatweel l := by
  intro l
  induction l with
  | nil => rfl
  | cons c rest IH =>
    simp only [specRemoveTatweel, List.foldr_cons, removeTatweel, List.filter_cons] at *
    by_cases h : c = tatweel <;> simp [h, IH]

lemma specFinalYaa_eq : ∀ l, specFinalYaa l = replaceFinalYaa l := by
  intro l
  rcases hr : l.reverse with _ | ⟨c, rest⟩
  · have hl : l = [] := by simpa using congrArg List.reverse hr
    subst hl
    simp [specFinalYaa, replaceFinalYaa]
  · have hl : l = rest.reverse ++ [c] := by
      have h2 := congrArg List.reverse hr
      simpa using h2
    have hred : specFinalYaa l =
        if c = yaa then (alefMaqsura :: rest).reverse else l := by
      unfold specFinalYaa
      rw [hr]
    rw [hred]
    unfold replaceFinalYaa
    by_cases hc : c = yaa
    · rw [if_pos hc, if_pos (by rw [hl, List.getLast?_concat, hc])]
      rw [hl, List.dropLast_concat, List.reverse_cons]
    · rw [if_neg hc, if_neg (by rw [hl, List.getLast?_concat]; simpa using hc)]

/-! ## Length bounds -/

lemma collapseWSAux_length : ∀ (l : List Char) (b : Bool),
    (collapseWSAux b l).length ≤ l.length := by
  intro l
  induction l with
  | nil => intro b; simp [collapseWSAux]
  | cons c rest IH =>
    intro b
    unfold collapseWSAux
    by_cases hw : isJsWS c
    · rw [if_pos hw]
      by_cases hb : b
      · subst hb
        rw [if_pos rfl]
        exact le_trans (IH true) (by simp)
      · simp only [hb, if_false, Bool.false_eq_true, List.length_cons]
        exact Nat.succ_le_succ (IH true)
    · rw [if_neg hw]
      simpa using Nat.succ_le_succ (IH false)

lemma dropTrailingWS_length (l : List Char) :
    (dropTrailingWS l).length ≤ l.length := by
  obtain ⟨v, hv⟩ := exists_dropTrailingWS_append l
  conv_rhs => rw [hv]
  rw [List.length_append]
  omega

lemma dropWhile_length {p : Char → Bool} (l : List Char) :
    (l.dropWhile p).length ≤ l.length := by
  obtain ⟨u, hu⟩ := @exists_append_dropWhile p l
  conv_rhs => rw [hu]
  rw [List.length_append]
  omega

lemma jsTrim_length (l : List Char) : (jsTrim l).length ≤ l.length :=
  le_trans (dropTrailingWS_length _) (dropWhile_length l)

lemma replaceFinalYaa_length (l : List Char) :
    (replaceFinalYaa l).length = l.length := by
  unfold replaceFinalYaa
  by_cases hy : l.getLast? = some yaa
  · rw [if_pos hy]
    have hne : l ≠ [] := by intro h0; rw [h0] at hy; simp at hy
    rw [List.length_append, List.length_dropLast]
    have : 1 ≤ l.length := List.length_pos.mpr hne
    simp
    omega
  · rw [if_neg hy]

/-- The normalized text is never longer than the input. -/
lemma normalizeArabicText_length (s : List Char) :
    (normalizeArabicText s).length ≤ s.length := by
  by_cases hs : s = []
  · subst hs; simp [normalizeArabicText]
  rw [normalizeArabicText_eq s hs]
  calc (jsTrim (collapseWS (removeTatweel (taaToHaa (replaceFinalYaa
          (unifyAlef (removeDiacritics s))))))).length
      ≤ (collapseWS (removeTatweel (taaToHaa (replaceFinalYaa
          (unifyAlef (removeDiacritics s)))))).length := jsTrim_length _
    _ ≤ (removeTatweel (taaToHaa (replaceFinalYaa
          (unifyAlef (removeDiacritics s))))).length := collapseWSAux_length _ false
    _ ≤ (taaToHaa (replaceFinalYaa (unifyAlef (removeDiacritics s)))).length :=
          List.length_filter_le _ _
    _ = (replaceFinalYaa (unifyAlef (removeDiacritics s))).length :=
          List.length_map _ _
    _ = (unifyAlef (removeDiacritics s)).length := replaceFinalYaa_length _
    _ = (removeDiacritics s).length := List.length_map _ _
    _ ≤ s.length := List.length_filter_le _ _

/-! ## Remaining helper lemmas -/

lemma levenshteinDistance_comm (s t : List Char) :
    levenshteinDistance s t = levenshteinDistance t s := by
  rw [levenshteinDistance_eq_editDistance, levenshteinDistance_eq_editDistance,
    editDistance_comm]

lemma zip_self_countP : ∀ l : List Char,
    ((l.zip l).countP fun p => p.1 != p.2) = 0 := by
  intro l
  induction l with
  | nil => rfl
  | cons c rest IH => simp [List.zip_cons_cons, List.countP_cons, IH]

lemma calcArab_delegates (a b : List Char) (ha : a ≠ []) (hb : b ≠ []) :
    calculateArabicSimilarity a b =
      calculateSimilarity (normalizeArabicText a) (normalizeArabicText b) := by
  simp [calculateArabicSimilarity, ha, hb]

/-! ## The claims -/

/-- C1: for every pair of string inputs, `calculateSimilarity` (and
hence `calculateArabicSimilarity`) returns an integer in `[0, 100]`:
never negative and never above 100, for all inputs including empty
strings and strings of very different lengths.  (The result type is
`ℤ`, so it is an integer and never NaN by construction; the clamping
and the empty-string short-circuits give the bounds.) -/
theorem claim_C1_score_range (a b : List Char) :
    (0 ≤ calculateSimilarity a b ∧ calculateSimilarity a b ≤ 100) ∧
    (0 ≤ calculateArabicSimilarity a b ∧ calculateArabicSimilarity a b ≤ 100) := by
  refine ⟨⟨calculateSimilarity_nonneg a b, calculateSimilarity_le_100 a b⟩, ?_, ?_⟩
  · unfold calculateArabicSimilarity
    split_ifs
    · norm_num
    · norm_num
    · exact calculateSimilarity_nonneg _ _
  · unfold calculateArabicSimilarity
    split_ifs
    · norm_num
    · norm_num
    · exact calculateSimilarity_le_100 _ _

/-- C2: `calculateArabicSimilarity` satisfies the identity and
empty-string invariants: `score(a, a) = 100` for non-empty `a`,
`score("", "") = 100`, and `score("", a) = score(a, "") = 0` for
non-empty `a` (the empty-string checks fire before normalization). -/
theorem claim_C2_identity_and_empty (a : List Char) (ha : a ≠ []) :
    calculateArabicSimilarity a a = 100 ∧
    calculateArabicSimilarity [] [] = 100 ∧
    calculateArabicSimilarity [] a = 0 ∧
    calculateArabicSimilarity a [] = 0 := by
  refine ⟨?_, by simp [calculateArabicSimilarity], ?_, ?_⟩
  · rw [calcArab_delegates a a ha ha]
    by_cases h0 : normalizeArabicText a = []
    · rw [h0]; exact calcSim_both_empty
    · exact calcSim_norm_eq _ _ h0 h0 rfl
  · simp [calculateArabicSimilarity, ha]
  · simp [calculateArabicSimilarity, ha]

theorem claim_C2_identity_and_empty_witness :
    (['a'] : List Char) ≠ [] ∧ calculateArabicSimilarity ['a'] ['a'] = 100 :=
  ⟨by decide, (claim_C2_identity_and_empty ['a'] (by decide)).1⟩

/-- C3 (counterexample): normalization is not idempotent.  For the
input Yaa-space, the first pass trims the trailing space only after the
final-Yaa check, leaving a string that ends in Yaa; the second pass
then rewrites that Yaa to Alef Maqsura. -/
theorem claim_C3_counterexample :
    normalizeArabicText (normalizeArabicText [yaa, ' ']) ≠
      normalizeArabicText [yaa, ' '] := by decide

/-- C3 (amended): normalization is idempotent on every input whose
normalized form does not end in the letter Yaa. -/
theorem claim_C3_normalize_idempotent (s : List Char)
    (h : (normalizeArabicText s).getLast? ≠ some yaa) :
    normalizeArabicText (normalizeArabicText s) = normalizeArabicText s :=
  normalizeArabicText_fix s h

theorem claim_C3_normalize_idempotent_witness :
    (normalizeArabicText ['a', 'b']).getLast? ≠ some yaa ∧
    normalizeArabicText (normalizeArabicText ['a', 'b']) =
      normalizeArabicText ['a', 'b'] :=
  ⟨by decide, claim_C3_normalize_idempotent ['a', 'b'] (by decide)⟩

/-- C4: the source's `levenshteinDistance` (the dynamic-programming
table with `dp[i][0] = i`, `dp[0][j] = j` and the three-way minimum
recurrence) computes exactly the classic Levenshtein edit distance
under unit-cost insertion, deletion and substitution, here rendered by
the textbook recursive definition `editDistance`. -/
theorem claim_C4_levenshtein_is_edit_distance (s1 s2 : List Char) :
    levenshteinDistance s1 s2 = editDistance s1 s2 :=
  levenshteinDistance_eq_editDistance s1 s2

/-- C5: `normalizeArabicText` applies exactly the six specified
transformations in the specified order: delete diacritics, unify Alef
variants, replace Yaa by Alef Maqsura only as the final character of
the whole string, replace Taa Marbuta by Haa, delete Tatweel, collapse
whitespace runs and trim. -/
theorem claim_C5_normalize_steps (l : List Char) :
    normalizeArabicText l = specNormalize l := by
  by_cases hs : l = []
  · subst hs; rfl
  · rw [normalizeArabicText_eq l hs]
    unfold specNormalize
    rw [specRemoveDiacritics_eq, specUnifyAlef_eq, specFinalYaa_eq,
      specTaaToHaa_eq, specRemoveTatweel_eq]

/-- C6: `calculateSimilarity` is symmetric in its two arguments. -/
theorem claim_C6_similarity_symmetric (a b : List Char) :
    calculateSimilarity a b = calculateSimilarity b a := by
  by_cases ha : a = []
  · by_cases hb : b = []
    · subst ha; subst hb; rfl
    · subst ha; rw [calcSim_left_empty b hb, calcSim_right_empty b hb]
  · by_cases hb : b = []
    · subst hb; rw [calcSim_right_empty a ha, calcSim_left_empty a ha]
    · by_cases hnm : basicNorm a = basicNorm b
      · rw [calcSim_norm_eq a b ha hb hnm, calcSim_norm_eq b a hb ha hnm.symm]
      · rw [calcSim_formula a b ha hb hnm,
          calcSim_formula b a hb ha fun h => hnm h.symm]
        rw [levenshteinDistance_comm (basicNorm a) (basicNorm b)]
        rw [Nat.max_comm (basicNorm a).length (basicNorm b).length]

/-- C7 (counterexample): two 5-character strings differing in exactly
one character position need not score 80, because the inputs are
trimmed and lowercased before comparison: the pair differing only in
the case of the first letter compares equal and scores 100. -/
theorem claim_C7_counterexample :
    (['A', 'b', 'c', 'd', 'e'] : List Char).length = 5 ∧
    (['a', 'b', 'c', 'd', 'e'] : List Char).length = 5 ∧
    (((['A', 'b', 'c', 'd', 'e'] : List Char).zip
        ['a', 'b', 'c', 'd', 'e']).countP fun p => p.1 != p.2) = 1 ∧
    calculateSimilarity ['A', 'b', 'c', 'd', 'e'] ['a', 'b', 'c', 'd', 'e'] = 100 := by
  refine ⟨by decide, by decide, by decide, ?_⟩
  exact calcSim_norm_eq _ _ (by decide) (by decide) (by decide)

/-- C7 (amended): for two 5-character strings that are unchanged by
trimming and lowercasing and differ in exactly one character position,
`calculateSimilarity` returns `round((5-1)/5*100) = 80`. -/
theorem claim_C7_five_char_one_substitution (a b : List Char)
    (ha5 : a.length = 5) (hb5 : b.length = 5)
    (hfa : basicNorm a = a) (hfb : basicNorm b = b)
    (hdiff : ((a.zip b).countP fun p => p.1 != p.2) = 1) :
    calculateSimilarity a b = 80 := by
  have ha : a ≠ [] := by intro h0; rw [h0] at ha5; simp at ha5
  have hb : b ≠ [] := by intro h0; rw [h0] at hb5; simp at hb5
  have hne : a ≠ b := by
    intro h0
    subst h0
    rw [zip_self_countP] at hdiff
    cases hdiff
  have hnm : basicNorm a ≠ basicNorm b := by rw [hfa, hfb]; exact hne
  have hd1 : editDistance a b ≤ 1 := by
    have h2 := editDistance_le_mismatches a b (by omega)
    rw [hdiff] at h2
    exact h2
  have hd0 : editDistance a b ≠ 0 := fun h0 => hne (editDistance_eq_zero a b h0)
  have hd : editDistance a b = 1 := by omega
  rw [calcSim_formula a b ha hb hnm, hfa, hfb,
    levenshteinDistance_eq_editDistance, hd, ha5, hb5]
  norm_num [jsRound]

theorem claim_C7_five_char_one_substitution_witness :
    (['a', 'b', 'c', 'd', 'e'] : List Char).length = 5 ∧
    (['a', 'b', 'c', 'd', 'z'] : List Char).length = 5 ∧
    basicNorm ['a', 'b', 'c', 'd', 'e'] = ['a', 'b', 'c', 'd', 'e'] ∧
    basicNorm ['a', 'b', 'c', 'd', 'z'] = ['a', 'b', 'c', 'd', 'z'] ∧
    (((['a', 'b', 'c', 'd', 'e'] : List Char).zip
        ['a', 'b', 'c', 'd', 'z']).countP fun p => p.1 != p.2) = 1 ∧
    calculateSimilarity ['a', 'b', 'c', 'd', 'e'] ['a', 'b', 'c', 'd', 'z'] = 80 :=
  ⟨by decide, by decide, by decide, by decide, by decide,
    claim_C7_five_char_one_substitution _ _ (by decide) (by decide) (by decide)
      (by decide) (by decide)⟩

/-- C8: two non-empty strings that agree after trimming and
lowercasing score 100 (the short-circuit before the distance
computation). -/
theorem claim_C8_trim_lower_match (a b : List Char) (ha : a ≠ []) (hb : b ≠ [])
    (h : basicNorm a = basicNorm b) : calculateSimilarity a b = 100 :=
  calcSim_norm_eq a b ha hb h

theorem claim_C8_trim_lower_match_witness :
    (['A'] : List Char) ≠ [] ∧ (['a'] : List Char) ≠ [] ∧
    basicNorm ['A'] = basicNorm ['a'] ∧
    calculateSimilarity ['A'] ['a'] = 100 :=
  ⟨by decide, by decide, by decide,
    claim_C8_trim_lower_match ['A'] ['a'] (by decide) (by decide) (by decide)⟩

/-- C9: for non-empty inputs, if both normalize to the empty string
the Arabic score is 100; if exactly one normalizes to the empty string
the score is 0. -/
theorem claim_C9_normalized_empty_scores (a b : List Char)
    (ha : a ≠ []) (hb : b ≠ []) :
    (normalizeArabicText a = [] → normalizeArabicText b = [] →
        calculateArabicSimilarity a b = 100) ∧
    (normalizeArabicText a = [] → normalizeArabicText b ≠ [] →
        calculateArabicSimilarity a b = 0) ∧
    (normalizeArabicText a ≠ [] → normalizeArabicText b = [] →
        calculateArabicSimilarity a b = 0) := by
  refine ⟨?_, ?_, ?_⟩
  · intro h1 h2
    rw [calcArab_delegates a b ha hb, h1, h2]
    exact calcSim_both_empty
  · intro h1 h2
    rw [calcArab_delegates a b ha hb, h1]
    exact calcSim_left_empty _ h2
  · intro h1 h2
    rw [calcArab_delegates a b ha hb, h2]
    exact calcSim_right_empty _ h1

theorem claim_C9_normalized_empty_scores_witness :
    ([Char.ofNat 0x064B] : List Char) ≠ [] ∧ ([tatweel] : List Char) ≠ [] ∧
    (['x'] : List Char) ≠ [] ∧
    normalizeArabicText [Char.ofNat 0x064B] = [] ∧
    normalizeArabicText [tatweel] = [] ∧
    normalizeArabicText ['x'] ≠ [] ∧
    calculateArabicSimilarity [Char.ofNat 0x064B] [tatweel] = 100 ∧
    calculateArabicSimilarity [Char.ofNat 0x064B] ['x'] = 0 :=
  ⟨by decide, by decide, by decide, by decide, by decide, by decide,
    (claim_C9_normalized_empty_scores _ _ (by decide) (by decide)).1
      (by decide) (by decide),
    (claim_C9_normalized_empty_scores _ _ (by decide) (by decide)).2.1
      (by decide) (by decide)⟩

/-- C10: normalization never lengthens its input. -/
theorem claim_C10_normalize_never_lengthens (s : List Char) :
    (normalizeArabicText s).length ≤ s.length :=
  normalizeArabicText_length s
